import Mathlib

/-!
Shallow embedding of the mcp-freescout core: the `TicketAnalyzer` text pipeline
(`stripHtml`, `extractIssueDescription`, `analyzeIssueType`), the Markdown
renderer `FreeScoutAPI.markdownToHtml`, the retry/backoff client logic
(`retryWithBackoff`, the `request` error messages), and the ticket-id parsing
utilities (`extractTicketIdFromUrl`, `parseTicketInput`, `addThread`).

Strings are modelled as `List Char` pipelines wrapped in `String`; JavaScript
regular-expression global replaces are modelled by explicit left-to-right
scanners with the same leftmost-match / resume-after-match semantics.  JS
string `.length` agrees with `List.length` on the ASCII data used throughout.
Several scanners take an explicit fuel argument (always instantiated with the
input length, which suffices because every step consumes at least one input
character); this keeps every definition structurally recursive and hence
kernel-evaluable.
-/

set_option maxRecDepth 8000

/-- ASCII whitespace of the JS regex class `\s` (space, tab, newline, CR,
vertical tab, form feed). -/
def jsWs (c : Char) : Bool :=
  c == ' ' || c == '\t' || c == '\n' || c == '\r' || c == '\x0b' || c == '\x0c'

/-- Does `l` start with `pat`? -/
def startsWithL : List Char → List Char → Bool
  | [], _ => true
  | _ :: _, [] => false
  | p :: ps, c :: cs => p == c && startsWithL ps cs

/-- Substring occurrence, as JS `String.prototype.includes`. -/
def containsLC (pat : List Char) : List Char → Bool
  | [] => pat.isEmpty
  | c :: cs => startsWithL pat (c :: cs) || containsLC pat cs

/-- `containsS s pat`: does `s` contain `pat` as a substring? -/
def containsS (s pat : String) : Bool := containsLC pat.data s.data

/-- Drop a trailing run of characters satisfying `p` (structural form of
`reverse ∘ dropWhile p ∘ reverse`). -/
def dropTrail (p : Char → Bool) : List Char → List Char
  | [] => []
  | c :: rest =>
    let t := dropTrail p rest
    if t.isEmpty && p c then [] else c :: t

/-- JS `String.prototype.trim` on the ASCII whitespace class. -/
def trimL (l : List Char) : List Char := dropTrail jsWs (l.dropWhile jsWs)

/-- Global literal replace, as JS `str.replace(/pat/g, rep)` for a literal
pattern: leftmost match, resume after the matched text. Fuel = input length
suffices (every step consumes at least one character; patterns are nonempty). -/
def replaceAllGo (pat rep : List Char) : ℕ → List Char → List Char
  | _, [] => []
  | 0, l => l
  | fuel + 1, c :: rest =>
    if startsWithL pat (c :: rest) then
      rep ++ replaceAllGo pat rep fuel (List.drop pat.length (c :: rest))
    else
      c :: replaceAllGo pat rep fuel rest

/-- Global literal replace with adequate fuel. -/
def replaceAllL (pat rep l : List Char) : List Char := replaceAllGo pat rep l.length l

/-- Split at the first `'>'`, if any: `some (before, after)`. -/
def splitGt : List Char → Option (List Char × List Char)
  | [] => none
  | c :: rest =>
    if c == '>' then some ([], rest)
    else (splitGt rest).map (fun p => (c :: p.1, p.2))

/-- JS `replace(/<[^>]*>/g, ' ')`: a `'<'` that is followed by some later `'>'`
swallows everything through the first such `'>'` and becomes one space. -/
def stripTagsGo : ℕ → List Char → List Char
  | _, [] => []
  | 0, l => l
  | fuel + 1, c :: rest =>
    if c == '<' then
      match splitGt rest with
      | some (_, after) => ' ' :: stripTagsGo fuel after
      | none => c :: stripTagsGo fuel rest
    else c :: stripTagsGo fuel rest

/-- Tag removal with adequate fuel. -/
def stripTagsL (l : List Char) : List Char := stripTagsGo l.length l

/-- JS `replace(/\s+/g, ' ')`: each maximal whitespace run becomes one space. -/
def collapseWsGo : ℕ → List Char → List Char
  | _, [] => []
  | 0, l => l
  | fuel + 1, c :: rest =>
    if jsWs c then ' ' :: collapseWsGo fuel (rest.dropWhile jsWs)
    else c :: collapseWsGo fuel rest

/-- Whitespace collapsing with adequate fuel. -/
def collapseWsL (l : List Char) : List Char := collapseWsGo l.length l

/-- The apostrophe character `'` (written numerically). -/
def apos : Char := Char.ofNat 39

/-- The five entity decodes of `TicketAnalyzer.stripHtml`, in source order:
`&nbsp;`, `&lt;`, `&gt;`, `&quot;`, `&#39;`, and `&amp;` last. -/
def decodeEntities (l : List Char) : List Char :=
  let l1 := replaceAllL "&nbsp;".data [' '] l
  let l2 := replaceAllL "&lt;".data ['<'] l1
  let l3 := replaceAllL "&gt;".data ['>'] l2
  let l4 := replaceAllL "&quot;".data ['"'] l3
  let l5 := replaceAllL "&#39;".data [apos] l4
  replaceAllL "&amp;".data ['&'] l5

/-- `TicketAnalyzer.stripHtml`: tag removal, entity decoding (ampersand last),
whitespace collapse, trim; `null`/`undefined`/empty input yields `""`. -/
def stripHtmlA : Option String → String
  | none => ""
  | some h =>
    if h = "" then ""
    else String.mk (trimL (collapseWsL (decodeEntities (stripTagsL h.data))))

/-- `stripHtml` on a plain (non-null) string. -/
def stripHtmlS (s : String) : String := stripHtmlA (some s)

/-- Thread type enum `'customer' | 'message' | 'note'`. -/
inductive TType
  | customer
  | message
  | note
  deriving DecidableEq

/-- The fields of a FreeScout thread used by the analyzer (`type?`, `body?`). -/
structure FThread where
  ttype : Option TType := none
  tbody : Option String := none
  deriving DecidableEq

/-- JS `Array.prototype.join(sep)`. -/
def joinS (sep : String) : List String → String
  | [] => ""
  | a :: rest => rest.foldl (fun acc s => acc ++ sep ++ s) a

/-- `TicketAnalyzer.extractIssueDescription` over the customer-typed messages. -/
def extractIssueDescription : List FThread → String
  | [] => "No customer messages found"
  | first :: rest =>
    let description := stripHtmlA first.tbody
    let additionalContext :=
      joinS "\n\nAdditional context:\n"
        ((rest.map (fun m => stripHtmlA m.tbody)).filter (fun text => 50 < text.length))
    if additionalContext = "" then description
    else description ++ "\n\n" ++ additionalContext

/-- `threads.filter((t) => t.type === 'customer')`. -/
def customerMessagesOf (threads : List FThread) : List FThread :=
  threads.filter (fun t => t.ttype == some TType.customer)

/-- The issue description computed by `analyzeConversation` from a
conversation's embedded threads. -/
def issueDescriptionOf (threads : List FThread) : String :=
  extractIssueDescription (customerMessagesOf threads)

/-- ASCII lower-casing as used by `toLowerCase` on the analyzer's keyword data. -/
def jsLowerChar (c : Char) : Char :=
  if 'A' ≤ c ∧ c ≤ 'Z' then Char.ofNat (c.toNat + 32) else c

/-- String lower-casing. -/
def jsToLower (s : String) : String := String.mk (s.data.map jsLowerChar)

/-- Third-party indicator keywords of `analyzeIssueType`. -/
def thirdPartyIndicators : List String :=
  ["elementor", "third-party plugin", "another plugin", "theme conflict",
   "hosting limitation", "server configuration", "php version", "wordpress core"]

/-- Feature-request keywords of `analyzeIssueType`. -/
def featureKeywords : List String :=
  ["would be nice", "feature request", "enhancement", "could you add",
   "is it possible to", "would like to"]

/-- Configuration-issue keywords of `analyzeIssueType`. -/
def configKeywords : List String :=
  ["settings", "configuration", "not configured", "setup", "installation"]

/-- The record returned by `analyzeIssueType`. -/
structure IssueTypeResult where
  isBug : Bool
  isThirdParty : Bool
  rootCause : Option String
  suggestedSolution : Option String
  deriving DecidableEq

/-- The lower-cased, normalized concatenation of all thread bodies. -/
def fullTextOf (threads : List FThread) : String :=
  jsToLower (joinS "\n" (threads.map (fun t => stripHtmlA t.tbody)))

/-- `TicketAnalyzer.analyzeIssueType`. -/
def analyzeIssueType (_description : String) (threads : List FThread) : IssueTypeResult :=
  let fullText := fullTextOf threads
  let isThirdParty := thirdPartyIndicators.any (fun k => containsS fullText k)
  let isFeatureRequest := featureKeywords.any (fun k => containsS fullText k)
  let isConfigIssue := configKeywords.any (fun k => containsS fullText k)
  { isBug := !isFeatureRequest && !isConfigIssue && !isThirdParty
    isThirdParty := isThirdParty
    rootCause :=
      if isThirdParty then some "Third-party plugin or system limitation"
      else if isConfigIssue then some "Configuration or setup issue"
      else if isFeatureRequest then some "Feature request, not a bug"
      else none
    suggestedSolution := none }

/-- The backtick character (written numerically). -/
def btick : Char := Char.ofNat 96

/-- Find the earliest `d d` pair with no newline before it: the non-greedy
closing delimiter search of `/\*\*(.*?)\*\*/` (dot excludes newline). -/
def splitDelim2 (d : Char) : List Char → Option (List Char × List Char)
  | [] => none
  | c :: rest =>
    if c == d && rest.head? == some d then some ([], rest.tail)
    else if c == '\n' then none
    else (splitDelim2 d rest).map (fun p => (c :: p.1, p.2))

/-- Find the earliest `d` with no newline before it: the non-greedy closing
delimiter search of a single-character pair such as the inline-code backtick. -/
def splitDelim1 (d : Char) : List Char → Option (List Char × List Char)
  | [] => none
  | c :: rest =>
    if c == d then some ([], rest)
    else if c == '\n' then none
    else (splitDelim1 d rest).map (fun p => (c :: p.1, p.2))

/-- Global replace of `dd(.*?)dd` by `ot $1 ct`, mirroring
`/\*\*(.*?)\*\*/g` and `/__(.*?)__/g`. -/
def replaceDDGo (d : Char) (ot ct : List Char) : ℕ → List Char → List Char
  | _, [] => []
  | 0, l => l
  | fuel + 1, c :: rest =>
    if c == d && rest.head? == some d then
      match splitDelim2 d rest.tail with
      | some (content, r) => ot ++ content ++ ct ++ replaceDDGo d ot ct fuel r
      | none => c :: replaceDDGo d ot ct fuel rest
    else c :: replaceDDGo d ot ct fuel rest

/-- Global replace of `(?<!d)d([^d]+)d(?!d)` by `ot $1 ct`; `prev` is the
subject character just before the scan position (for the lookbehind). -/
def replaceEmGo (d : Char) (ot ct : List Char) : ℕ → Option Char → List Char → List Char
  | _, _, [] => []
  | 0, _, l => l
  | fuel + 1, prev, c :: rest =>
    if c == d && prev != some d then
      let content := rest.takeWhile (fun x => x != d)
      match rest.dropWhile (fun x => x != d) with
      | _ :: r =>
        if !content.isEmpty && r.head? != some d then
          ot ++ content ++ ct ++ replaceEmGo d ot ct fuel (some d) r
        else c :: replaceEmGo d ot ct fuel (some c) rest
      | [] => c :: replaceEmGo d ot ct fuel (some c) rest
    else c :: replaceEmGo d ot ct fuel (some c) rest

/-- Global replace of `` d(.*?)d `` (inline code), mirroring the backtick rule. -/
def replaceCodeGo (d : Char) (ot ct : List Char) : ℕ → List Char → List Char
  | _, [] => []
  | 0, l => l
  | fuel + 1, c :: rest =>
    if c == d then
      match splitDelim1 d rest with
      | some (content, r) => ot ++ content ++ ct ++ replaceCodeGo d ot ct fuel r
      | none => c :: replaceCodeGo d ot ct fuel rest
    else c :: replaceCodeGo d ot ct fuel rest

/-- JS `text.split('\n')` (keeps empty segments; `"" → [""]`). -/
def splitLinesL : List Char → List (List Char)
  | [] => [[]]
  | c :: rest =>
    if c == '\n' then [] :: splitLinesL rest
    else
      match splitLinesL rest with
      | [] => [[c]]
      | l :: ls => (c :: l) :: ls

/-- Test of `/^\d+\.\s+/` on a trimmed line. -/
def lineIsOrdered (t : List Char) : Bool :=
  !(t.takeWhile Char.isDigit).isEmpty &&
    (match t.dropWhile Char.isDigit with
     | c :: c2 :: _ => c == '.' && jsWs c2
     | _ => false)

/-- `trimmedLine.replace(/^\d+\.\s+/, '')` (valid when `lineIsOrdered`). -/
def orderedContent (t : List Char) : List Char :=
  ((t.dropWhile Char.isDigit).tail).dropWhile jsWs

/-- Test of `/^[-*]\s+/` on a trimmed line. -/
def lineIsBullet (t : List Char) : Bool :=
  match t with
  | c :: c2 :: _ => (c == '-' || c == '*') && jsWs c2
  | _ => false

/-- `trimmedLine.replace(/^[-*]\s+/, '')` (valid when `lineIsBullet`). -/
def bulletContent (t : List Char) : List Char := t.tail.dropWhile jsWs

/-- The lookahead predicate of the blank-line case: a later line whose trimmed
text is nonempty and is an ordered or bullet list item. -/
def isListLine (l : List Char) : Bool :=
  let t := trimL l
  !t.isEmpty && (lineIsOrdered t || lineIsBullet t)

/-- `<li>` wrapping. -/
def liWrap (content : List Char) : List Char := "<li>".data ++ content ++ "</li>".data

/-- JS `Array.prototype.join(sep)` on char lists. -/
def joinL (sep : List Char) : List (List Char) → List Char
  | [] => []
  | a :: rest => rest.foldl (fun acc l => acc ++ sep ++ l) a

/-- Paragraph flush: `<p>` + lines joined by `<br>` + `</p>`. -/
def pWrap (para : List (List Char)) : List Char :=
  "<p>".data ++ joinL "<br>".data para ++ "</p>".data

/-- The line-processing state machine of `markdownToHtml` (ordered/unordered
list flags, paragraph accumulator, processed-lines accumulator). -/
def mdLoop : List (List Char) → Bool → Bool → List (List Char) → List (List Char) →
    List (List Char)
  | [], inOL, inUL, para, out =>
    out ++ (if inOL then ["</ol>".data] else [])
        ++ (if inUL then ["</ul>".data] else [])
        ++ (if para.isEmpty then [] else [pWrap para])
  | line :: rest, inOL, inUL, para, out =>
    let t := trimL line
    if t.isEmpty then
      if (inOL || inUL) && rest.any isListLine then
        mdLoop rest inOL inUL para out
      else
        mdLoop rest false false []
          (out ++ (if inOL then ["</ol>".data] else [])
               ++ (if inUL then ["</ul>".data] else [])
               ++ (if para.isEmpty then [] else [pWrap para]))
    else if lineIsOrdered t then
      mdLoop rest true false []
        (out ++ (if para.isEmpty then [] else [pWrap para])
             ++ (if inOL then [] else (if inUL then ["</ul>".data] else []) ++ ["<ol>".data])
             ++ [liWrap (orderedContent t)])
    else if lineIsBullet t then
      mdLoop rest false true []
        (out ++ (if para.isEmpty then [] else [pWrap para])
             ++ (if inUL then [] else (if inOL then ["</ol>".data] else []) ++ ["<ul>".data])
             ++ [liWrap (bulletContent t)])
    else
      mdLoop rest false false (para ++ [t])
        (out ++ (if inOL then ["</ol>".data] else [])
             ++ (if inUL then ["</ul>".data] else []))

/-- `FreeScoutAPI.markdownToHtml`: bold, italic, inline code (regex replaces in
source order), then the line state machine, joined with blank lines. -/
def markdownToHtml (s : String) : String :=
  let l1 := replaceDDGo '*' "<strong>".data "</strong>".data s.data.length s.data
  let l2 := replaceDDGo '_' "<strong>".data "</strong>".data l1.length l1
  let l3 := replaceEmGo '*' "<em>".data "</em>".data l2.length none l2
  let l4 := replaceEmGo '_' "<em>".data "</em>".data l3.length none l3
  let l5 := replaceCodeGo btick "<code>".data "</code>".data l4.length l4
  String.mk (joinL "\n\n".data (mdLoop (splitLinesL l5) false false [] []))

/-- `retryWithBackoff`'s retryability test on an error message. -/
def isRetryable (m : String) : Bool :=
  containsS m "ECONNRESET" || containsS m "ETIMEDOUT" ||
  containsS m "429" || containsS m "503" || containsS m "502"

/-- The message of the error thrown by `request` on HTTP status ≥ 500. -/
def serverErrorMsg (status : ℕ) (errorText : String) : String :=
  "FreeScout API server error (" ++ Nat.repr status ++ "): " ++ errorText

/-- The message of the error thrown by `request` on HTTP 429. -/
def rateLimitMsg (errorText : String) : String :=
  "FreeScout API rate limit (429): " ++ errorText

/-- The message of the error thrown by `request` on timeout cancellation. -/
def timeoutMsg (ms : ℕ) : String :=
  "FreeScout API timeout after " ++ Nat.repr ms ++ "ms"

/-- `retryWithBackoff` result, fuel-indexed; attempt `k`'s outcome is `f k`.
Retries while the error is retryable and `retryCount < maxRetries`.  Fuel
`maxRetries + 1 - k` suffices (`k` never exceeds `maxRetries` on a retry). -/
def retryGo {α : Type} (maxRetries : ℕ) (f : ℕ → Except String α) :
    ℕ → ℕ → Except String α
  | 0, k => f k
  | fuel + 1, k =>
    match f k with
    | Except.ok v => Except.ok v
    | Except.error m =>
      if isRetryable m = true ∧ k < maxRetries then retryGo maxRetries f fuel (k + 1)
      else Except.error m

/-- `retryWithBackoff fn retryCount` over the attempt-outcome sequence `f`. -/
def retryWithBackoff {α : Type} (maxRetries : ℕ) (f : ℕ → Except String α) (k : ℕ) :
    Except String α :=
  retryGo maxRetries f (maxRetries + 1 - k) k

/-- Number of attempts (calls of `fn`) performed by `retryWithBackoff`. -/
def retryCountGo {α : Type} (maxRetries : ℕ) (f : ℕ → Except String α) : ℕ → ℕ → ℕ
  | 0, _ => 1
  | fuel + 1, k =>
    match f k with
    | Except.ok _ => 1
    | Except.error m =>
      if isRetryable m = true ∧ k < maxRetries then 1 + retryCountGo maxRetries f fuel (k + 1)
      else 1

/-- Attempt count with adequate fuel. -/
def retryAttemptCount {α : Type} (maxRetries : ℕ) (f : ℕ → Except String α) (k : ℕ) : ℕ :=
  retryCountGo maxRetries f (maxRetries + 1 - k) k

/-- One backoff delay:
`Math.min(initialDelay * 2^retryCount + Math.random()*1000, maxDelay)`. -/
def backoffDelay (initialDelay maxDelay : ℚ) (jitter : ℕ → ℚ) (k : ℕ) : ℚ :=
  min (initialDelay * 2 ^ k + jitter k) maxDelay

/-- The sequence of backoff delays slept by `retryWithBackoff`. -/
def retryDelaysGo {α : Type} (maxRetries : ℕ) (initialDelay maxDelay : ℚ)
    (jitter : ℕ → ℚ) (f : ℕ → Except String α) : ℕ → ℕ → List ℚ
  | 0, _ => []
  | fuel + 1, k =>
    match f k with
    | Except.ok _ => []
    | Except.error m =>
      if isRetryable m = true ∧ k < maxRetries then
        backoffDelay initialDelay maxDelay jitter k ::
          retryDelaysGo maxRetries initialDelay maxDelay jitter f fuel (k + 1)
      else []

/-- Delay sequence with adequate fuel. -/
def retryDelays {α : Type} (maxRetries : ℕ) (initialDelay maxDelay : ℚ)
    (jitter : ℕ → ℚ) (f : ℕ → Except String α) (k : ℕ) : List ℚ :=
  retryDelaysGo maxRetries initialDelay maxDelay jitter f (maxRetries + 1 - k) k

/-- After `conversations?`: match `\/(\d+)` (a slash then a maximal digit run). -/
def digitsAfterSlash : List Char → Option (List Char)
  | [] => none
  | c :: r =>
    if c == '/' then
      let ds := r.takeWhile Char.isDigit
      if ds.isEmpty then none else some ds
    else none

/-- Try to match `conversations?\/(\d+)` at the start of `l` (greedy optional
`s` with backtracking). -/
def convAt (l : List Char) : Option (List Char) :=
  if startsWithL "conversation".data l then
    match l.drop 12 with
    | c :: r2 =>
      if c == 's' then (digitsAfterSlash r2).orElse (fun _ => digitsAfterSlash (c :: r2))
      else digitsAfterSlash (c :: r2)
    | [] => none
  else none

/-- Leftmost match of `conversations?\/(\d+)`. -/
def scanConv : List Char → Option (List Char)
  | [] => none
  | c :: rest => (convAt (c :: rest)).orElse (fun _ => scanConv rest)

/-- `FreeScoutAPI.extractTicketIdFromUrl`. -/
def extractTicketIdFromUrl (url : String) : Option String :=
  (scanConv url.data).map String.mk

/-- Try to match `#?(\d+)` at the start of `l`. -/
def hashAt : List Char → Option (List Char)
  | [] => none
  | c :: r =>
    if c == '#' then
      let ds := r.takeWhile Char.isDigit
      if ds.isEmpty then none else some ds
    else if c.isDigit then some ((c :: r).takeWhile Char.isDigit)
    else none

/-- Leftmost match of `#?(\d+)`. -/
def scanHash : List Char → Option (List Char)
  | [] => none
  | c :: rest => (hashAt (c :: rest)).orElse (fun _ => scanHash rest)

/-- `/^\d+$/.test(input.trim())`. -/
def isNumericInput (s : String) : Bool :=
  let t := trimL s.data
  !t.isEmpty && t.all Char.isDigit

/-- `FreeScoutAPI.parseTicketInput`, with a thrown error modelled as
`Except.error` carrying the message. -/
def parseTicketInput (input : String) : Except String String :=
  match (if containsS input "http" then scanConv input.data else none) with
  | some ds => Except.ok (String.mk ds)
  | none =>
    if isNumericInput input then Except.ok (String.mk (trimL input.data))
    else
      match scanHash input.data with
      | some ds => Except.ok (String.mk ds)
      | none => Except.error ("Could not extract ticket ID from input: " ++ input)

/-- Draft state enum `'draft' | 'published'`. -/
inductive DraftState
  | draft
  | published
  deriving DecidableEq

/-- The JSON body assembled by `FreeScoutAPI.addThread` (`user` and `state`
fields absent when not set). -/
structure AddThreadBody where
  btype : TType
  text : String
  user : Option Int
  state : Option DraftState
  deriving DecidableEq

/-- `FreeScoutAPI.addThread`'s request: path and POST body.  The `user` field
is set through the truthiness guard `if (userId)`, so a present-but-zero
`userId` behaves like an absent one; `state` values are nonempty strings and
hence always truthy. -/
def addThreadRequest (ticketId : String) (ttype : TType) (text : String)
    (userId : Option Int) (state : Option DraftState) : String × AddThreadBody :=
  ("/conversations/" ++ ticketId ++ "/threads",
   { btype := ttype
     text := text
     user := match userId with
             | some u => if u = 0 then none else some u
             | none => none
     state := state })

/-- Shape invariant of `stripTags` output: no `'>'` occurs after any `'<'`
(such text contains no further complete tag). -/
def NoTagP (l : List Char) : Prop := ∀ u v, l = u ++ '<' :: v → '>' ∉ v

/-- Shape invariant of `collapseWs` output: every whitespace character is a
plain space and no two adjacent characters are both whitespace. -/
def wsOk : List Char → Bool
  | [] => true
  | [c] => !jsWs c || c == ' '
  | c :: d :: rest => (!jsWs c || c == ' ') && !(jsWs c && jsWs d) && wsOk (d :: rest)

/-! ## Theorems -/

/-- C6 (counterexample): `stripHtml("&amp;amp;")` does not return `"&"`; the
single global `&amp;` replace consumes the first five characters and leaves the
trailing `amp;` untouched. -/
theorem strip_html_amp_amp_cex : stripHtmlS "&amp;amp;" ≠ "&" := by decide

/-- C6 (amended): `stripHtml("&amp;amp;")` returns the five-character string
`"&amp;"`: the ampersand entity is decoded last and exactly once
(non-recursively), so the leading `&amp;` becomes `&` and the rest stays. -/
theorem strip_html_single_decode_value : stripHtmlS "&amp;amp;" = "&amp;" := rfl

/-- C1 (counterexample): the generated HTML is not sanitized; an injected
`<script>` element survives `markdownToHtml` verbatim, so the output does
contain a `<script>` tag. -/
theorem markdownToHtml_script_preserved_cex :
    containsS (markdownToHtml "<script>alert(1)</script>") "<script>" = true := by decide

/-- C1 (amended): `markdownToHtml("**bold** and `code`")` yields exactly
`<p><strong>bold</strong> and <code>code</code></p>` — it contains
`<strong>bold</strong>` and `<code>code</code>` and no literal Markdown
markers — but the output is not passed through any sanitizer: an input with an
injected `<script>` element produces output still containing the `<script>`
tag. -/
theorem markdownToHtml_bold_code_and_script_passthrough :
    markdownToHtml "**bold** and `code`"
      = "<p><strong>bold</strong> and <code>code</code></p>"
    ∧ ('*' ∉ (markdownToHtml "**bold** and `code`").data
        ∧ '_' ∉ (markdownToHtml "**bold** and `code`").data
        ∧ btick ∉ (markdownToHtml "**bold** and `code`").data)
    ∧ markdownToHtml "<script>alert(1)</script>" = "<p><script>alert(1)</script></p>" := by
  refine ⟨rfl, ⟨by decide, by decide, by decide⟩, rfl⟩

/-- C10: `addThread` guards the `user` field with the truthiness check
`if (userId)`, so a call with `userId = 0` sends the same request as a call
with no `userId` at all: the POST body contains no `user` field. -/
theorem add_thread_user_zero_dropped (ticketId : String) (ttype : TType) (text : String)
    (state : Option DraftState) :
    addThreadRequest ticketId ttype text (some 0) state
      = addThreadRequest ticketId ttype text none state
    ∧ (addThreadRequest ticketId ttype text (some 0) state).2.user = none := by
  exact ⟨rfl, rfl⟩

/-- C5: the classifier satisfies `isBug = !feature && !config && !third` over
the lower-cased normalized concatenation of all thread bodies, `rootCause`
follows the third-party / config / feature precedence chain (else `none`),
and `suggestedSolution` is always left unset. -/
theorem analyze_issue_type_classification (d : String) (threads : List FThread) :
    (analyzeIssueType d threads).isBug
      = (!(featureKeywords.any (fun k => containsS (fullTextOf threads) k))
         && !(configKeywords.any (fun k => containsS (fullTextOf threads) k))
         && !(thirdPartyIndicators.any (fun k => containsS (fullTextOf threads) k)))
    ∧ (analyzeIssueType d threads).rootCause
      = (if thirdPartyIndicators.any (fun k => containsS (fullTextOf threads) k)
           then some "Third-party plugin or system limitation"
         else if configKeywords.any (fun k => containsS (fullTextOf threads) k)
           then some "Configuration or setup issue"
         else if featureKeywords.any (fun k => containsS (fullTextOf threads) k)
           then some "Feature request, not a bug"
         else none)
    ∧ (analyzeIssueType d threads).suggestedSolution = none := by
  exact ⟨rfl, rfl, rfl⟩

/-- C8 (counterexample): `markdownToHtml` is not idempotent on already-rendered
HTML-only input: re-rendering `markdownToHtml "<p>Hello</p>"` wraps it in a
further paragraph element. -/
theorem markdownToHtml_not_idempotent_cex :
    markdownToHtml (markdownToHtml "<p>Hello</p>") ≠ markdownToHtml "<p>Hello</p>" := by decide

/-- C9 (counterexample): an input that is not a URL, not numeric, and contains
no `#<digits>` token still succeeds — the fallback regex `#?(\d+)` makes the
hash optional, so any digit run is accepted instead of raising an input
error. -/
theorem parse_ticket_input_digits_without_hash_cex :
    parseTicketInput "version 2 broken" = Except.ok "2" := rfl

/-- A prefix match survives appending on the right. -/
theorem startsWithL_append (pat l r : List Char) (h : startsWithL pat l = true) :
    startsWithL pat (l ++ r) = true := by
  induction pat generalizing l with
  | nil => rfl
  | cons p ps ih =>
    cases l with
    | nil => simp [startsWithL] at h
    | cons c cs =>
      simp only [startsWithL, Bool.and_eq_true] at h
      simp only [List.cons_append, startsWithL, Bool.and_eq_true]
      exact ⟨h.1, ih cs h.2⟩

/-- Every pattern occurs in the empty-pattern sense in any list. -/
theorem containsLC_nil (r : List Char) : containsLC [] r = true := by
  cases r <;> rfl

/-- A substring occurrence survives appending on the right. -/
theorem containsLC_append_left (pat l r : List Char) (h : containsLC pat l = true) :
    containsLC pat (l ++ r) = true := by
  induction l with
  | nil =>
    have hp : pat = [] := by
      cases pat with
      | nil => rfl
      | cons p ps => simp [containsLC, List.isEmpty] at h
    subst hp
    exact containsLC_nil r
  | cons c cs ih =>
    simp only [containsLC, Bool.or_eq_true] at h
    rw [List.cons_append]
    simp only [containsLC, Bool.or_eq_true]
    rcases h with h | h
    · exact Or.inl (startsWithL_append pat (c :: cs) r h)
    · exact Or.inr (ih h)

/-- Substring containment survives appending a suffix string. -/
theorem containsS_append_left (p t pat : String) (h : containsS p pat = true) :
    containsS (p ++ t) pat = true := by
  cases p with
  | mk pd =>
    cases t with
    | mk td => exact containsLC_append_left pat.data pd td h

/-- A message containing `"502"` is classified retryable. -/
theorem isRetryable_of_contains_502 (m : String) (h : containsS m "502" = true) :
    isRetryable m = true := by
  simp [isRetryable, h]

/-- A message containing `"503"` is classified retryable. -/
theorem isRetryable_of_contains_503 (m : String) (h : containsS m "503" = true) :
    isRetryable m = true := by
  simp [isRetryable, h]

/-- The HTTP 502 server-error message is always retryable (its rendered status
code is in the keyword list). -/
theorem isRetryable_serverError_502 (text : String) :
    isRetryable (serverErrorMsg 502 text) = true := by
  apply isRetryable_of_contains_502
  exact containsS_append_left ("FreeScout API server error (" ++ Nat.repr 502 ++ "): ") text "502"
    (by decide)

/-- The HTTP 503 server-error message is always retryable. -/
theorem isRetryable_serverError_503 (text : String) :
    isRetryable (serverErrorMsg 503 text) = true := by
  apply isRetryable_of_contains_503
  exact containsS_append_left ("FreeScout API server error (" ++ Nat.repr 503 ++ "): ") text "503"
    (by decide)

/-- A retryable failure with retries left leads to exactly one more attempt
round: the result is that of restarting at `retryCount + 1`. -/
theorem retryWithBackoff_retry_step {α : Type} (maxR k : ℕ) (f : ℕ → Except String α)
    (m : String) (hk : k < maxR) (hf : f k = Except.error m) (hr : isRetryable m = true) :
    retryWithBackoff maxR f k = retryWithBackoff maxR f (k + 1) := by
  unfold retryWithBackoff
  have hfuel : maxR + 1 - k = (maxR - k) + 1 := by omega
  have hfuel2 : maxR + 1 - (k + 1) = maxR - k := by omega
  rw [hfuel, hfuel2]
  simp only [retryGo, hf]
  rw [if_pos ⟨hr, hk⟩]

/-- A non-retryable failure propagates immediately, whatever the retry budget. -/
theorem retryWithBackoff_stop {α : Type} (maxR k : ℕ) (f : ℕ → Except String α)
    (m : String) (hf : f k = Except.error m) (hr : isRetryable m = false) :
    retryWithBackoff maxR f k = Except.error m := by
  unfold retryWithBackoff
  cases hfuel : maxR + 1 - k with
  | zero => simp only [retryGo, hf]
  | succ n =>
    simp only [retryGo, hf]
    rw [if_neg]
    intro hcon
    rw [hr] at hcon
    exact absurd hcon.1 (by simp)

/-- C2 (counterexample): an attempt failing with HTTP 500 produces the message
`FreeScout API server error (500): ...`, which the retryability test rejects
(only `ECONNRESET`/`ETIMEDOUT`/`429`/`503`/`502` are recognized), so the error
propagates after a single attempt even though retries remain; the timeout
message `FreeScout API timeout after 30000ms` is likewise not retryable. -/
theorem server500_timeout_not_retried_cex :
    isRetryable (serverErrorMsg 500 "Internal Server Error") = false
    ∧ isRetryable (timeoutMsg 30000) = false
    ∧ retryWithBackoff 3
        (fun _ => (Except.error (serverErrorMsg 500 "Internal Server Error") : Except String ℕ)) 0
        = Except.error (serverErrorMsg 500 "Internal Server Error")
    ∧ retryAttemptCount 3
        (fun _ => (Except.error (serverErrorMsg 500 "Internal Server Error") : Except String ℕ)) 0
        = 1 := by
  exact ⟨by decide, by decide, rfl, rfl⟩

/-- C2 (amended): attempts failing with HTTP 502 or 503 (whose rendered status
code appears in the message) are classified retryable and, while
`retryCount < maxRetries`, trigger another attempt instead of propagating; by
contrast HTTP 500 (keyword-free message) and the per-attempt timeout error are
classified non-retryable and propagate immediately. -/
theorem retry_classification_amended (status : ℕ) (text : String) (maxR k : ℕ)
    (f : ℕ → Except String ℕ)
    (hst : status = 502 ∨ status = 503)
    (hk : k < maxR)
    (hf : f k = Except.error (serverErrorMsg status text)) :
    isRetryable (serverErrorMsg status text) = true
    ∧ retryWithBackoff maxR f k = retryWithBackoff maxR f (k + 1)
    ∧ isRetryable (serverErrorMsg 500 "Internal Server Error") = false
    ∧ isRetryable (timeoutMsg 30000) = false
    ∧ (∀ g : ℕ → Except String ℕ, g k = Except.error (timeoutMsg 30000) →
        retryWithBackoff maxR g k = Except.error (timeoutMsg 30000)) := by
  have hret : isRetryable (serverErrorMsg status text) = true := by
    rcases hst with h | h
    · subst h; exact isRetryable_serverError_502 text
    · subst h; exact isRetryable_serverError_503 text
  refine ⟨hret, retryWithBackoff_retry_step maxR k f _ hk hf hret, by decide, by decide, ?_⟩
  intro g hg
  exact retryWithBackoff_stop maxR k g _ hg (by decide)

/-- C2 (witness): the amended classification at concrete values. -/
theorem retry_classification_witness :
    isRetryable (serverErrorMsg 502 "Bad Gateway") = true
    ∧ retryWithBackoff 3 (fun _ => (Except.error (serverErrorMsg 502 "Bad Gateway") : Except String ℕ)) 0
        = retryWithBackoff 3 (fun _ => (Except.error (serverErrorMsg 502 "Bad Gateway") : Except String ℕ)) 1
    ∧ retryWithBackoff 3 (fun _ => (Except.error (timeoutMsg 30000) : Except String ℕ)) 0
        = Except.error (timeoutMsg 30000) := by
  have h := retry_classification_amended 502 "Bad Gateway" 3 0
      (fun _ => (Except.error (serverErrorMsg 502 "Bad Gateway") : Except String ℕ))
      (Or.inl rfl) (by decide) rfl
  exact ⟨h.1, h.2.1, h.2.2.2.2 (fun _ => Except.error (timeoutMsg 30000)) rfl⟩

/-- With `N ≤ maxRetries` failures then a success, the retry loop reaches the
success from any start `k ≤ N` (given enough fuel). -/
theorem retryGo_success {α : Type} (maxR N : ℕ) (f : ℕ → Except String α)
    (em : ℕ → String) (v : α)
    (hf : ∀ i, i < N → f i = Except.error (em i) ∧ isRetryable (em i) = true)
    (hs : f N = Except.ok v) :
    ∀ gas k, k ≤ N → N ≤ maxR → N - k < gas →
      retryGo maxR f gas k = Except.ok v := by
  intro gas
  induction gas with
  | zero => intro k _ _ h; omega
  | succ g ih =>
    intro k hkN hNmax hgas
    rcases Nat.eq_or_lt_of_le hkN with hk | hklt
    · subst hk
      simp only [retryGo, hs]
    · obtain ⟨hfe, hre⟩ := hf k hklt
      have hkmax : k < maxR := lt_of_lt_of_le hklt hNmax
      simp only [retryGo, hfe]
      rw [if_pos ⟨hre, hkmax⟩]
      exact ih (k + 1) hklt hNmax (by omega)

/-- Attempt count in the success case: `N - k + 1` attempts from start `k`. -/
theorem retryCountGo_success {α : Type} (maxR N : ℕ) (f : ℕ → Except String α)
    (em : ℕ → String) (v : α)
    (hf : ∀ i, i < N → f i = Except.error (em i) ∧ isRetryable (em i) = true)
    (hs : f N = Except.ok v) :
    ∀ gas k, k ≤ N → N ≤ maxR → N - k < gas →
      retryCountGo maxR f gas k = N - k + 1 := by
  intro gas
  induction gas with
  | zero => intro k _ _ h; omega
  | succ g ih =>
    intro k hkN hNmax hgas
    rcases Nat.eq_or_lt_of_le hkN with hk | hklt
    · subst hk
      simp only [retryCountGo, hs, Nat.sub_self]
    · obtain ⟨hfe, hre⟩ := hf k hklt
      have hkmax : k < maxR := lt_of_lt_of_le hklt hNmax
      simp only [retryCountGo, hfe]
      rw [if_pos ⟨hre, hkmax⟩, ih (k + 1) hklt hNmax (by omega)]
      omega

/-- Delay sequence in the success case: one backoff delay per retry, at
attempt indices `k, k+1, …, N-1`. -/
theorem retryDelaysGo_success {α : Type} (maxR N : ℕ) (idelay mdelay : ℚ)
    (jitter : ℕ → ℚ) (f : ℕ → Except String α) (em : ℕ → String) (v : α)
    (hf : ∀ i, i < N → f i = Except.error (em i) ∧ isRetryable (em i) = true)
    (hs : f N = Except.ok v) :
    ∀ gas k, k ≤ N → N ≤ maxR → N - k < gas →
      retryDelaysGo maxR idelay mdelay jitter f gas k
        = (List.range' k (N - k)).map (backoffDelay idelay mdelay jitter) := by
  intro gas
  induction gas with
  | zero => intro k _ _ h; omega
  | succ g ih =>
    intro k hkN hNmax hgas
    rcases Nat.eq_or_lt_of_le hkN with hk | hklt
    · subst hk
      simp only [retryDelaysGo, hs, Nat.sub_self, List.range'_zero, List.map_nil]
    · obtain ⟨hfe, hre⟩ := hf k hklt
      have hkmax : k < maxR := lt_of_lt_of_le hklt hNmax
      simp only [retryDelaysGo, hfe]
      rw [if_pos ⟨hre, hkmax⟩, ih (k + 1) hklt hNmax (by omega)]
      have hnk : N - k = (N - (k + 1)) + 1 := by omega
      rw [hnk, List.range'_succ, List.map_cons]

/-- With more than `maxRetries` retryable failures, the loop exhausts the
budget and propagates attempt `maxRetries`' error, from any start `k ≤ maxR`. -/
theorem retryGo_exhaust {α : Type} (maxR N : ℕ) (f : ℕ → Except String α)
    (em : ℕ → String)
    (hf : ∀ i, i < N → f i = Except.error (em i) ∧ isRetryable (em i) = true)
    (hN : maxR < N) :
    ∀ gas k, k ≤ maxR → maxR - k < gas →
      retryGo maxR f gas k = Except.error (em maxR) := by
  intro gas
  induction gas with
  | zero => intro k _ h; omega
  | succ g ih =>
    intro k hkmax hgas
    rcases Nat.eq_or_lt_of_le hkmax with hk | hklt
    · subst hk
      obtain ⟨hfe, _⟩ := hf k hN
      simp only [retryGo, hfe]
      rw [if_neg]
      intro hcon
      exact absurd hcon.2 (lt_irrefl k)
    · obtain ⟨hfe, hre⟩ := hf k (by omega)
      simp only [retryGo, hfe]
      rw [if_pos ⟨hre, hklt⟩]
      exact ih (k + 1) hklt (by omega)

/-- Attempt count in the exhaustion case: `maxR - k + 1` attempts. -/
theorem retryCountGo_exhaust {α : Type} (maxR N : ℕ) (f : ℕ → Except String α)
    (em : ℕ → String)
    (hf : ∀ i, i < N → f i = Except.error (em i) ∧ isRetryable (em i) = true)
    (hN : maxR < N) :
    ∀ gas k, k ≤ maxR → maxR - k < gas →
      retryCountGo maxR f gas k = maxR - k + 1 := by
  intro gas
  induction gas with
  | zero => intro k _ h; omega
  | succ g ih =>
    intro k hkmax hgas
    rcases Nat.eq_or_lt_of_le hkmax with hk | hklt
    · subst hk
      obtain ⟨hfe, _⟩ := hf k hN
      simp only [retryCountGo, hfe]
      rw [if_neg, Nat.sub_self]
      intro hcon
      exact absurd hcon.2 (lt_irrefl k)
    · obtain ⟨hfe, hre⟩ := hf k (by omega)
      simp only [retryCountGo, hfe]
      rw [if_pos ⟨hre, hklt⟩, ih (k + 1) hklt (by omega)]
      omega

/-- Delay sequence in the exhaustion case: delays at attempts `k … maxR-1`. -/
theorem retryDelaysGo_exhaust {α : Type} (maxR N : ℕ) (idelay mdelay : ℚ)
    (jitter : ℕ → ℚ) (f : ℕ → Except String α) (em : ℕ → String)
    (hf : ∀ i, i < N → f i = Except.error (em i) ∧ isRetryable (em i) = true)
    (hN : maxR < N) :
    ∀ gas k, k ≤ maxR → maxR - k < gas →
      retryDelaysGo maxR idelay mdelay jitter f gas k
        = (List.range' k (maxR - k)).map (backoffDelay idelay mdelay jitter) := by
  intro gas
  induction gas with
  | zero => intro k _ h; omega
  | succ g ih =>
    intro k hkmax hgas
    rcases Nat.eq_or_lt_of_le hkmax with hk | hklt
    · subst hk
      obtain ⟨hfe, _⟩ := hf k hN
      simp only [retryDelaysGo, hfe, Nat.sub_self, List.range'_zero, List.map_nil]
      rw [if_neg]
      intro hcon
      exact absurd hcon.2 (lt_irrefl k)
    · obtain ⟨hfe, hre⟩ := hf k (by omega)
      simp only [retryDelaysGo, hfe]
      rw [if_pos ⟨hre, hklt⟩, ih (k + 1) hklt (by omega)]
      have hnk : maxR - k = (maxR - (k + 1)) + 1 := by omega
      rw [hnk, List.range'_succ, List.map_cons]

/-- C3: for `N` consecutive retryable failures followed by a success, the
client performs exactly `min(N, maxRetries) + 1` attempts; it returns the
success when `N ≤ maxRetries` and otherwise propagates the last failure
(attempt `maxRetries`' error) unmodified; each backoff delay equals
`min(initialDelay·2^attempt + jitter, maxDelay)` with the jitter drawn from
`[0, 1000)`. -/
theorem retry_bound_and_delays {α : Type} (maxR N : ℕ) (f : ℕ → Except String α)
    (em : ℕ → String) (v : α) (idelay mdelay : ℚ) (jitter : ℕ → ℚ)
    (hf : ∀ i, i < N → f i = Except.error (em i) ∧ isRetryable (em i) = true)
    (hs : f N = Except.ok v)
    (_hj : ∀ i, 0 ≤ jitter i ∧ jitter i < 1000) :
    (N ≤ maxR → retryWithBackoff maxR f 0 = Except.ok v)
    ∧ (maxR < N → retryWithBackoff maxR f 0 = Except.error (em maxR))
    ∧ retryAttemptCount maxR f 0 = min N maxR + 1
    ∧ retryDelays maxR idelay mdelay jitter f 0
        = (List.range (min N maxR)).map
            (fun i => min (idelay * 2 ^ i + jitter i) mdelay) := by
  refine ⟨?_, ?_, ?_, ?_⟩
  · intro hNmax
    unfold retryWithBackoff
    exact retryGo_success maxR N f em v hf hs (maxR + 1 - 0) 0 (Nat.zero_le N) hNmax (by omega)
  · intro hN
    unfold retryWithBackoff
    exact retryGo_exhaust maxR N f em hf hN (maxR + 1 - 0) 0 (Nat.zero_le maxR) (by omega)
  · unfold retryAttemptCount
    rcases le_or_lt N maxR with hNmax | hN
    · rw [retryCountGo_success maxR N f em v hf hs (maxR + 1 - 0) 0 (Nat.zero_le N) hNmax
        (by omega)]
      rw [Nat.min_eq_left hNmax]
      omega
    · rw [retryCountGo_exhaust maxR N f em hf hN (maxR + 1 - 0) 0 (Nat.zero_le maxR) (by omega)]
      rw [Nat.min_eq_right (Nat.le_of_lt hN)]
      omega
  · unfold retryDelays
    have hmap : ∀ n, (List.range' 0 n).map (backoffDelay idelay mdelay jitter)
        = (List.range n).map (fun i => min (idelay * 2 ^ i + jitter i) mdelay) := by
      intro n
      rw [List.range_eq_range']
      rfl
    rcases le_or_lt N maxR with hNmax | hN
    · rw [retryDelaysGo_success maxR N idelay mdelay jitter f em v hf hs (maxR + 1 - 0) 0
        (Nat.zero_le N) hNmax (by omega)]
      rw [Nat.min_eq_left hNmax, Nat.sub_zero] at *
      exact hmap N
    · rw [retryDelaysGo_exhaust maxR N idelay mdelay jitter f em hf hN (maxR + 1 - 0) 0
        (Nat.zero_le maxR) (by omega)]
      rw [Nat.min_eq_right (Nat.le_of_lt hN), Nat.sub_zero] at *
      exact hmap maxR

/-- C3 (witness): two `ECONNRESET` failures then a success, with
`maxRetries = 3`, `initialDelay = 1000`, `maxDelay = 10000`, jitter 500:
three attempts, the success returned, two backoff delays. -/
theorem retry_bound_witness :
    retryWithBackoff 3 (fun i => if i < 2 then Except.error "ECONNRESET" else Except.ok 7) 0
      = Except.ok 7
    ∧ retryAttemptCount 3 (fun i => if i < 2 then Except.error "ECONNRESET" else Except.ok 7) 0
      = 3
    ∧ retryDelays 3 1000 10000 (fun _ => 500)
        (fun i => if i < 2 then Except.error "ECONNRESET" else Except.ok 7) 0
      = (List.range 2).map (fun i => min ((1000 : ℚ) * 2 ^ i + 500) 10000) := by
  have h := retry_bound_and_delays 3 2
      (fun i => if i < 2 then Except.error "ECONNRESET" else Except.ok 7)
      (fun _ => "ECONNRESET") 7 1000 10000 (fun _ => 500)
      (by
        intro i hi
        constructor
        · simp [hi]
        · show isRetryable "ECONNRESET" = true
          decide)
      (by norm_num)
      (by intro i; norm_num)
  refine ⟨h.1 (by norm_num), ?_, ?_⟩
  · rw [h.2.2.1]
    norm_num
  · rw [h.2.2.2]
    norm_num

/-- Folding string concatenation only grows the length. -/
theorem foldl_append_length (sep : String) (rest : List String) :
    ∀ a : String, a.length ≤ (rest.foldl (fun acc s => acc ++ sep ++ s) a).length := by
  induction rest with
  | nil => intro a; simp
  | cons b bs ih =>
    intro a
    rw [List.foldl_cons]
    have h1 := ih (a ++ sep ++ b)
    have h2 : a.length ≤ (a ++ sep ++ b).length := by
      rw [String.length_append, String.length_append]
      omega
    omega

/-- A join whose first element is nonempty is nonempty. -/
theorem joinS_cons_ne_empty (sep a : String) (rest : List String) (h : 0 < a.length) :
    joinS sep (a :: rest) ≠ "" := by
  intro hcon
  have hlen : a.length ≤ (joinS sep (a :: rest)).length := foldl_append_length sep rest a
  rw [hcon] at hlen
  have h0 : ("" : String).length = 0 := rfl
  omega

/-- C4 (amended): the issue description is the normalized first customer
message; qualifying follow-ups (normalized length strictly over 50) are
appended after one blank line, with the literal separator
`"\n\nAdditional context:\n"` only between consecutive qualifying follow-ups
(so a single qualifying follow-up carries no label); with no customer-typed
threads the result is exactly `"No customer messages found"`. -/
theorem issue_description_structure (threads : List FThread) :
    (customerMessagesOf threads = [] → issueDescriptionOf threads = "No customer messages found")
    ∧ (∀ first rest, customerMessagesOf threads = first :: rest →
        issueDescriptionOf threads =
          (if ((rest.map (fun m => stripHtmlA m.tbody)).filter (fun text => 50 < text.length)) = []
           then stripHtmlA first.tbody
           else stripHtmlA first.tbody ++ "\n\n"
                ++ joinS "\n\nAdditional context:\n"
                    ((rest.map (fun m => stripHtmlA m.tbody)).filter
                      (fun text => 50 < text.length)))) := by
  constructor
  · intro h
    unfold issueDescriptionOf
    rw [h]
    rfl
  · intro first rest h
    unfold issueDescriptionOf
    rw [h]
    show (let description := stripHtmlA first.tbody;
          let additionalContext :=
            joinS "\n\nAdditional context:\n"
              ((rest.map (fun m => stripHtmlA m.tbody)).filter (fun text => 50 < text.length));
          if additionalContext = "" then description
          else description ++ "\n\n" ++ additionalContext) = _
    cases hA : (rest.map (fun m => stripHtmlA m.tbody)).filter (fun text => 50 < text.length) with
    | nil =>
      rfl
    | cons a as =>
      have hmem : a ∈ (rest.map (fun m => stripHtmlA m.tbody)).filter
          (fun text => 50 < text.length) := by
        rw [hA]
        exact List.mem_cons_self a as
      have h50 : 50 < a.length := by
        have := (List.mem_filter.mp hmem).2
        exact of_decide_eq_true this
      have hne : joinS "\n\nAdditional context:\n" (a :: as) ≠ "" :=
        joinS_cons_ne_empty _ a as (by omega)
      show (if joinS "\n\nAdditional context:\n" (a :: as) = ""
            then stripHtmlA first.tbody
            else stripHtmlA first.tbody ++ "\n\n"
                 ++ joinS "\n\nAdditional context:\n" (a :: as)) = _
      rw [if_neg hne, if_neg (by simp : ¬(a :: as = []))]

/-- C4 (witness): one customer message plus one 61-character follow-up — the
follow-up is appended after a blank line, with no label. -/
theorem issue_description_witness :
    issueDescriptionOf
        [{ ttype := some TType.customer, tbody := some "Hi" },
         { ttype := some TType.customer,
           tbody := some "This follow-up message is definitely longer than fifty chars." }]
      = "Hi" ++ "\n\n"
        ++ joinS "\n\nAdditional context:\n"
            ["This follow-up message is definitely longer than fifty chars."] := by
  have h := (issue_description_structure
      [{ ttype := some TType.customer, tbody := some "Hi" },
       { ttype := some TType.customer,
         tbody := some "This follow-up message is definitely longer than fifty chars." }]).2
      { ttype := some TType.customer, tbody := some "Hi" }
      [{ ttype := some TType.customer,
         tbody := some "This follow-up message is definitely longer than fifty chars." }]
      rfl
  rw [h]
  rfl

/-- C4 (counterexample): with exactly one qualifying follow-up the literal
label `"Additional context:"` does not occur anywhere in the result — the
label is a join separator between follow-ups, not a prefix of the appended
block — contradicting the claim that each appended follow-up is separated
from the primary description by the label. -/
theorem issue_description_label_missing_cex :
    issueDescriptionOf
        [{ ttype := some TType.customer, tbody := some "Hi" },
         { ttype := some TType.customer,
           tbody := some "This follow-up message is definitely longer than fifty chars." }]
      = "Hi\n\nThis follow-up message is definitely longer than fifty chars."
    ∧ containsS
        (issueDescriptionOf
          [{ ttype := some TType.customer, tbody := some "Hi" },
           { ttype := some TType.customer,
             tbody := some "This follow-up message is definitely longer than fifty chars." }])
        "Additional context:" = false := by
  exact ⟨rfl, by decide⟩

/-- `dropTrail` yields a sublist. -/
theorem dropTrail_sublist (p : Char → Bool) : ∀ l : List Char, (dropTrail p l).Sublist l := by
  intro l
  induction l with
  | nil => simp [dropTrail]
  | cons c rest ih =>
    show (if (dropTrail p rest).isEmpty && p c then [] else c :: dropTrail p rest).Sublist
      (c :: rest)
    by_cases h : ((dropTrail p rest).isEmpty && p c) = true
    · rw [if_pos h]
      exact List.nil_sublist _
    · rw [if_neg h]
      exact List.Sublist.cons₂ c ih

/-- `trimL` yields a sublist. -/
theorem trimL_sublist (l : List Char) : (trimL l).Sublist l :=
  (dropTrail_sublist jsWs (l.dropWhile jsWs)).trans (List.dropWhile_sublist jsWs)

/-- Characters of a trimmed list come from the original list. -/
theorem mem_trimL {c : Char} {l : List Char} (h : c ∈ trimL l) : c ∈ l :=
  List.Sublist.mem h (trimL_sublist l)

/-- On digit-free input, `\/(\d+)` cannot match. -/
theorem digitsAfterSlash_none (l : List Char) (h : ∀ c ∈ l, c.isDigit = false) :
    digitsAfterSlash l = none := by
  cases l with
  | nil => rfl
  | cons c r =>
    show (if c == '/' then _ else none) = none
    by_cases hc : (c == '/') = true
    · rw [if_pos hc]
      cases r with
      | nil => rfl
      | cons d r' =>
        have hd : d.isDigit = false := h d (by simp)
        simp [List.takeWhile, hd]
    · rw [if_neg hc]

/-- On digit-free input, `conversations?\/(\d+)` cannot match at a position. -/
theorem convAt_none (l : List Char) (h : ∀ c ∈ l, c.isDigit = false) :
    convAt l = none := by
  unfold convAt
  by_cases hs : startsWithL "conversation".data l = true
  · rw [if_pos hs]
    have hdrop : ∀ c ∈ l.drop 12, c.isDigit = false := fun c hc => h c (List.mem_of_mem_drop hc)
    cases hd : l.drop 12 with
    | nil => rfl
    | cons c r2 =>
      have hc : c.isDigit = false := hdrop c (by rw [hd]; simp)
      have hr2 : ∀ x ∈ r2, x.isDigit = false := fun x hx => hdrop x (by rw [hd]; simp [hx])
      show (if (c == 's') = true
            then (digitsAfterSlash r2).orElse (fun _ => digitsAfterSlash (c :: r2))
            else digitsAfterSlash (c :: r2)) = none
      by_cases hcs : (c == 's') = true
      · rw [if_pos hcs]
        rw [digitsAfterSlash_none r2 hr2, digitsAfterSlash_none (c :: r2) (by
          intro x hx
          rcases List.mem_cons.mp hx with h1 | h1
          · rw [h1]; exact hc
          · exact hr2 x h1)]
        rfl
      · rw [if_neg hcs]
        exact digitsAfterSlash_none (c :: r2) (by
          intro x hx
          rcases List.mem_cons.mp hx with h1 | h1
          · rw [h1]; exact hc
          · exact hr2 x h1)
  · rw [if_neg hs]

/-- On digit-free input the URL ticket-id scan fails. -/
theorem scanConv_none (l : List Char) (h : ∀ c ∈ l, c.isDigit = false) :
    scanConv l = none := by
  induction l with
  | nil => rfl
  | cons c rest ih =>
    show (convAt (c :: rest)).orElse (fun _ => scanConv rest) = none
    rw [convAt_none (c :: rest) h, ih (fun x hx => h x (by simp [hx]))]
    rfl

/-- On digit-free input, `#?(\d+)` cannot match at a position. -/
theorem hashAt_none (l : List Char) (h : ∀ c ∈ l, c.isDigit = false) :
    hashAt l = none := by
  cases l with
  | nil => rfl
  | cons c r =>
    show (if c == '#' then _ else if c.isDigit then _ else none) = none
    by_cases hc : (c == '#') = true
    · rw [if_pos hc]
      cases r with
      | nil => rfl
      | cons d r' =>
        have hd : d.isDigit = false := h d (by simp)
        simp [List.takeWhile, hd]
    · rw [if_neg hc, if_neg (by simp [h c (by simp)])]

/-- On digit-free input the `#?(\d+)` scan fails. -/
theorem scanHash_none (l : List Char) (h : ∀ c ∈ l, c.isDigit = false) :
    scanHash l = none := by
  induction l with
  | nil => rfl
  | cons c rest ih =>
    show (hashAt (c :: rest)).orElse (fun _ => scanHash rest) = none
    rw [hashAt_none (c :: rest) h, ih (fun x hx => h x (by simp [hx]))]
    rfl

/-- On digit-free input the trimmed string is not all-digits-nonempty. -/
theorem isNumericInput_false (s : String) (h : ∀ c ∈ s.data, c.isDigit = false) :
    isNumericInput s = false := by
  unfold isNumericInput
  cases ht : trimL s.data with
  | nil => rfl
  | cons c r =>
    have hc : c.isDigit = false := h c (mem_trimL (by rw [ht]; simp))
    simp [List.all_cons, hc]

/-- C9 (amended): the three positive forms parse as specified — a URL with a
`conversation(s)/<digits>` segment, a raw numeric string, free text with
`#<digits>` — but the free-text fallback regex `#?(\d+)` makes the hash
optional, so any digit run is accepted; an error whose message carries the
original input is raised exactly when the input contains no digit at all. -/
theorem parse_ticket_input_amended :
    parseTicketInput "https://host/conversation/4821" = Except.ok "4821"
    ∧ parseTicketInput "12345" = Except.ok "12345"
    ∧ parseTicketInput "ticket #77" = Except.ok "77"
    ∧ (∀ s : String, (∀ c ∈ s.data, c.isDigit = false) →
        parseTicketInput s = Except.error ("Could not extract ticket ID from input: " ++ s)) := by
  refine ⟨rfl, rfl, rfl, ?_⟩
  intro s h
  unfold parseTicketInput
  have h1 : scanConv s.data = none := scanConv_none s.data h
  have h2 : isNumericInput s = false := isNumericInput_false s h
  have h3 : scanHash s.data = none := scanHash_none s.data h
  cases hc : containsS s "http" <;> simp [h1, h2, h3]

/-- C9 (witness): a digit-free input raises the input-carrying error. -/
theorem parse_ticket_input_witness :
    parseTicketInput "not a ticket"
      = Except.error ("Could not extract ticket ID from input: " ++ "not a ticket") :=
  parse_ticket_input_amended.2.2.2 "not a ticket" (by decide)

/-- Bold replacement is the identity when the delimiter is absent. -/
theorem replaceDDGo_no_delim (d : Char) (ot ct : List Char) :
    ∀ (fuel : ℕ) (l : List Char), d ∉ l → replaceDDGo d ot ct fuel l = l := by
  intro fuel
  induction fuel with
  | zero => intro l _; cases l <;> rfl
  | succ f ih =>
    intro l h
    cases l with
    | nil => rfl
    | cons c rest =>
      have hc : (c == d) = false := by
        rw [beq_eq_false_iff_ne]
        intro hcd
        exact h (by rw [hcd]; exact List.mem_cons_self d rest)
      simp only [replaceDDGo, hc, Bool.false_and, Bool.false_eq_true, if_false]
      rw [ih rest (fun hm => h (List.mem_cons_of_mem c hm))]

/-- Italic replacement is the identity when the delimiter is absent. -/
theorem replaceEmGo_no_delim (d : Char) (ot ct : List Char) :
    ∀ (fuel : ℕ) (prev : Option Char) (l : List Char), d ∉ l →
      replaceEmGo d ot ct fuel prev l = l := by
  intro fuel
  induction fuel with
  | zero => intro prev l _; cases l <;> rfl
  | succ f ih =>
    intro prev l h
    cases l with
    | nil => rfl
    | cons c rest =>
      have hc : (c == d) = false := by
        rw [beq_eq_false_iff_ne]
        intro hcd
        exact h (by rw [hcd]; exact List.mem_cons_self d rest)
      simp only [replaceEmGo, hc, Bool.false_and, Bool.false_eq_true, if_false]
      rw [ih (some c) rest (fun hm => h (List.mem_cons_of_mem c hm))]

/-- Inline-code replacement is the identity when the delimiter is absent. -/
theorem replaceCodeGo_no_delim (d : Char) (ot ct : List Char) :
    ∀ (fuel : ℕ) (l : List Char), d ∉ l → replaceCodeGo d ot ct fuel l = l := by
  intro fuel
  induction fuel with
  | zero => intro l _; cases l <;> rfl
  | succ f ih =>
    intro l h
    cases l with
    | nil => rfl
    | cons c rest =>
      have hc : (c == d) = false := by
        rw [beq_eq_false_iff_ne]
        intro hcd
        exact h (by rw [hcd]; exact List.mem_cons_self d rest)
      simp only [replaceCodeGo, hc, Bool.false_eq_true, if_false]
      rw [ih rest (fun hm => h (List.mem_cons_of_mem c hm))]

/-- Newline-free text splits into a single line. -/
theorem splitLinesL_no_newline : ∀ l : List Char, '\n' ∉ l → splitLinesL l = [l] := by
  intro l
  induction l with
  | nil => intro _; rfl
  | cons c rest ih =>
    intro h
    have hc : (c == '\n') = false := by
      rw [beq_eq_false_iff_ne]
      intro hcd
      exact h (by rw [hcd]; exact List.mem_cons_self _ rest)
    simp only [splitLinesL, hc, Bool.false_eq_true, if_false]
    rw [ih (fun hm => h (List.mem_cons_of_mem c hm))]

/-- Dropping a trailing run does nothing when the last element fails `p`. -/
theorem dropTrail_append_last (p : Char → Bool) (x : Char) (hx : p x = false) :
    ∀ l : List Char, dropTrail p (l ++ [x]) = l ++ [x] := by
  intro l
  induction l with
  | nil =>
    show (if (dropTrail p []).isEmpty && p x then [] else x :: dropTrail p []) = [x]
    rw [hx]
    rfl
  | cons c rest ih =>
    show (if (dropTrail p (rest ++ [x])).isEmpty && p c then []
          else c :: dropTrail p (rest ++ [x])) = c :: (rest ++ [x])
    rw [ih]
    have hne : (rest ++ [x]).isEmpty = false := by
      cases rest <;> rfl
    rw [hne]
    rfl

/-- Trimming does nothing when the first and last characters are not
whitespace. -/
theorem trimL_head_last (c x : Char) (m : List Char)
    (hc : jsWs c = false) (hx : jsWs x = false) :
    trimL (c :: (m ++ [x])) = c :: (m ++ [x]) := by
  unfold trimL
  rw [List.dropWhile_cons, hc]
  simp only [Bool.false_eq_true, if_false]
  have : c :: (m ++ [x]) = (c :: m) ++ [x] := by simp
  rw [this, dropTrail_append_last jsWs x hx]

/-- A line starting with `'<'` is not an ordered-list item. -/
theorem lineIsOrdered_lt (r : List Char) : lineIsOrdered ('<' :: r) = false := by
  simp [lineIsOrdered, List.takeWhile_cons]

/-- A line starting with `'<'` is not a bullet item. -/
theorem lineIsBullet_lt (r : List Char) : lineIsBullet ('<' :: r) = false := by
  cases r with
  | nil => rfl
  | cons c2 r' => simp [lineIsBullet]

/-- On a single line with no Markdown metacharacters that is neither blank nor
a list item, `markdownToHtml` wraps the trimmed line in one `<p>` element. -/
theorem markdownToHtml_single_para (s : String)
    (h1 : '\n' ∉ s.data) (h2 : '*' ∉ s.data) (h3 : '_' ∉ s.data) (h4 : btick ∉ s.data)
    (h5 : trimL s.data ≠ [])
    (h6 : lineIsOrdered (trimL s.data) = false)
    (h7 : lineIsBullet (trimL s.data) = false) :
    markdownToHtml s = String.mk ("<p>".data ++ trimL s.data ++ "</p>".data) := by
  simp only [markdownToHtml]
  rw [replaceDDGo_no_delim '*' _ _ _ s.data h2]
  rw [replaceDDGo_no_delim '_' _ _ _ s.data h3]
  rw [replaceEmGo_no_delim '*' _ _ _ none s.data h2]
  rw [replaceEmGo_no_delim '_' _ _ _ none s.data h3]
  rw [replaceCodeGo_no_delim btick _ _ _ s.data h4]
  rw [splitLinesL_no_newline s.data h1]
  have hE : (trimL s.data).isEmpty = false := by
    cases htt : trimL s.data with
    | nil => exact absurd htt h5
    | cons a b => rfl
  have hloop : mdLoop [s.data] false false [] [] = [pWrap [trimL s.data]] := by
    simp only [mdLoop, hE, h6, h7, Bool.false_eq_true, if_false, Bool.or_self,
      Bool.false_and, List.nil_append, List.append_nil]
    rfl
  rw [hloop]
  rfl

/-- C8 (amended): `markdownToHtml` is not idempotent on already-rendered,
Markdown-metacharacter-free HTML input: on any single-line input that is
neither blank nor a list item it emits `<p>` + trimmed line + `</p>`, so a
second application wraps the first result in one more `<p>` element and the
two outputs differ. -/
theorem markdownToHtml_paragraph_wrap_growth (s : String)
    (h1 : '\n' ∉ s.data) (h2 : '*' ∉ s.data) (h3 : '_' ∉ s.data) (h4 : btick ∉ s.data)
    (h5 : trimL s.data ≠ [])
    (h6 : lineIsOrdered (trimL s.data) = false)
    (h7 : lineIsBullet (trimL s.data) = false) :
    markdownToHtml s = String.mk ("<p>".data ++ trimL s.data ++ "</p>".data)
    ∧ markdownToHtml (markdownToHtml s) = "<p>" ++ markdownToHtml s ++ "</p>"
    ∧ markdownToHtml (markdownToHtml s) ≠ markdownToHtml s := by
  have hs := markdownToHtml_single_para s h1 h2 h3 h4 h5 h6 h7
  have hdata : (markdownToHtml s).data = "<p>".data ++ trimL s.data ++ "</p>".data := by
    rw [hs]
  have hmem : ∀ c, c ∈ (markdownToHtml s).data →
      c ∈ "<p>".data ∨ c ∈ trimL s.data ∨ c ∈ "</p>".data := by
    intro c hc
    rw [hdata] at hc
    rcases List.mem_append.mp hc with hh | hh
    · rcases List.mem_append.mp hh with hx | hx
      · exact Or.inl hx
      · exact Or.inr (Or.inl hx)
    · exact Or.inr (Or.inr hh)
  have h1' : '\n' ∉ (markdownToHtml s).data := by
    intro hc
    rcases hmem _ hc with hx | hx | hx
    · exact absurd hx (by decide)
    · exact h1 (mem_trimL hx)
    · exact absurd hx (by decide)
  have h2' : '*' ∉ (markdownToHtml s).data := by
    intro hc
    rcases hmem _ hc with hx | hx | hx
    · exact absurd hx (by decide)
    · exact h2 (mem_trimL hx)
    · exact absurd hx (by decide)
  have h3' : '_' ∉ (markdownToHtml s).data := by
    intro hc
    rcases hmem _ hc with hx | hx | hx
    · exact absurd hx (by decide)
    · exact h3 (mem_trimL hx)
    · exact absurd hx (by decide)
  have h4' : btick ∉ (markdownToHtml s).data := by
    intro hc
    rcases hmem _ hc with hx | hx | hx
    · exact absurd hx (by decide)
    · exact h4 (mem_trimL hx)
    · exact absurd hx (by decide)
  have hshape : (markdownToHtml s).data
      = '<' :: (('p' :: '>' :: (trimL s.data ++ ['<', '/', 'p'])) ++ ['>']) := by
    rw [hdata]
    show ['<', 'p', '>'] ++ trimL s.data ++ ['<', '/', 'p', '>'] = _
    simp
  have htrim' : trimL (markdownToHtml s).data = (markdownToHtml s).data := by
    rw [hshape]
    exact trimL_head_last '<' '>' _ (by decide) (by decide)
  have h5' : trimL (markdownToHtml s).data ≠ [] := by
    rw [htrim', hshape]
    simp
  have h6' : lineIsOrdered (trimL (markdownToHtml s).data) = false := by
    rw [htrim', hshape]
    exact lineIsOrdered_lt _
  have h7' : lineIsBullet (trimL (markdownToHtml s).data) = false := by
    rw [htrim', hshape]
    exact lineIsBullet_lt _
  have hs2 := markdownToHtml_single_para (markdownToHtml s) h1' h2' h3' h4' h5' h6' h7'
  rw [htrim'] at hs2
  have happ : ("<p>" ++ markdownToHtml s ++ "</p>" : String)
      = String.mk ("<p>".data ++ (markdownToHtml s).data ++ "</p>".data) := by
    cases markdownToHtml s
    rfl
  refine ⟨hs, ?_, ?_⟩
  · rw [hs2, happ]
  · rw [hs2]
    intro hcon
    have hlen : ("<p>".data ++ (markdownToHtml s).data ++ "</p>".data).length
        = (markdownToHtml s).data.length := congrArg (fun x : String => x.data.length) hcon
    rw [List.length_append, List.length_append] at hlen
    have e1 : ("<p>".data : List Char).length = 3 := rfl
    have e2 : ("</p>".data : List Char).length = 4 := rfl
    omega

/-- C8 (witness): for the repository's own raw-HTML example `<p>Hello</p>`,
re-rendering wraps the output in one more paragraph and changes it. -/
theorem markdownToHtml_wrap_witness :
    markdownToHtml (markdownToHtml "<p>Hello</p>")
      = "<p>" ++ markdownToHtml "<p>Hello</p>" ++ "</p>"
    ∧ markdownToHtml (markdownToHtml "<p>Hello</p>") ≠ markdownToHtml "<p>Hello</p>" := by
  have h := markdownToHtml_paragraph_wrap_growth "<p>Hello</p>" (by decide) (by decide)
      (by decide) (by decide) (by decide) (by decide) (by decide)
  exact ⟨h.2.1, h.2.2⟩

/-- If `'>'` does not occur, the tag-close search fails. -/
theorem splitGt_none_of_not_mem : ∀ l : List Char, '>' ∉ l → splitGt l = none := by
  intro l
  induction l with
  | nil => intro _; rfl
  | cons c rest ih =>
    intro h
    have hc : (c == '>') = false := by
      rw [beq_eq_false_iff_ne]
      intro hcd
      exact h (by rw [hcd]; exact List.mem_cons_self _ rest)
    simp only [splitGt, hc, Bool.false_eq_true, if_false]
    rw [ih (fun hm => h (List.mem_cons_of_mem c hm))]
    rfl

/-- If the tag-close search fails, `'>'` does not occur. -/
theorem not_mem_of_splitGt_none : ∀ l : List Char, splitGt l = none → '>' ∉ l := by
  intro l
  induction l with
  | nil => intro _; simp
  | cons c rest ih =>
    intro h hm
    by_cases hc : (c == '>') = true
    · simp [splitGt, hc] at h
    · simp only [splitGt, hc, Bool.false_eq_true, if_false] at h
      cases hsp : splitGt rest with
      | none =>
        rcases List.mem_cons.mp hm with h1 | h1
        · rw [h1] at hc
          simp at hc
        · exact ih hsp h1
      | some q =>
        rw [hsp] at h
        simp at h

/-- The tag-close search splits the list at the first `'>'`. -/
theorem splitGt_eq : ∀ (l pre post : List Char), splitGt l = some (pre, post) →
    l = pre ++ '>' :: post := by
  intro l
  induction l with
  | nil => intro pre post h; exact Option.noConfusion h
  | cons c rest ih =>
    intro pre post h
    by_cases hc : (c == '>') = true
    · simp only [splitGt, hc, if_true, Option.some.injEq, Prod.mk.injEq] at h
      rw [← h.1, ← h.2, List.nil_append]
      rw [beq_iff_eq] at hc
      rw [hc]
    · simp only [splitGt, hc, Bool.false_eq_true, if_false] at h
      cases hrest : splitGt rest with
      | none => rw [hrest] at h; simp at h
      | some q =>
        rw [hrest] at h
        simp only [Option.map_some', Option.some.injEq, Prod.mk.injEq] at h
        have hq := ih q.1 q.2 (by rw [hrest])
        rw [← h.1, ← h.2, List.cons_append]
        rw [← hq]

/-- The empty list has no tags. -/
theorem noTagP_nil : NoTagP [] := by
  intro u v huv
  simp at huv

/-- Unfolding `NoTagP` over a cons cell. -/
theorem noTagP_cons (c : Char) (t : List Char) :
    NoTagP (c :: t) ↔ (c = '<' → '>' ∉ t) ∧ NoTagP t := by
  constructor
  · intro h
    constructor
    · intro hc
      exact h [] t (by rw [hc, List.nil_append])
    · intro u v huv
      exact h (c :: u) v (by rw [huv, List.cons_append])
  · rintro ⟨h1, h2⟩ u v huv
    cases u with
    | nil =>
      rw [List.nil_append] at huv
      injection huv with hx hy
      rw [← hy]
      exact h1 hx
    | cons a u' =>
      rw [List.cons_append] at huv
      injection huv with _ hy
      exact h2 u' v hy

/-- `NoTagP` restricts to suffixes. -/
theorem noTagP_suffix_of_append (u s : List Char) (h : NoTagP (u ++ s)) : NoTagP s := by
  intro l1 l2 hl
  exact h (u ++ l1) l2 (by rw [hl, List.append_assoc])

/-- `NoTagP` restricts to prefixes. -/
theorem noTagP_of_append_left (s w : List Char) (h : NoTagP (s ++ w)) : NoTagP s := by
  intro l1 l2 hl
  have h2 := h l1 (l2 ++ w) (by rw [hl]; simp)
  intro hm
  exact h2 (List.mem_append.mpr (Or.inl hm))

/-- Characters of `stripTags` output come from the input, apart from the
inserted spaces. -/
theorem mem_stripTagsGo {c : Char} : ∀ (fuel : ℕ) (l : List Char),
    c ∈ stripTagsGo fuel l → c ∈ l ∨ c = ' ' := by
  intro fuel
  induction fuel with
  | zero =>
    intro l h
    cases l with
    | nil => simp [stripTagsGo] at h
    | cons a rest => exact Or.inl h
  | succ f ih =>
    intro l h
    cases l with
    | nil => simp [stripTagsGo] at h
    | cons a rest =>
      by_cases ha : (a == '<') = true
      · simp only [stripTagsGo, ha, if_true] at h
        cases hsp : splitGt rest with
        | none =>
          rw [hsp] at h
          rcases List.mem_cons.mp h with h1 | h1
          · exact Or.inl (by rw [h1]; exact List.mem_cons_self _ rest)
          · rcases ih rest h1 with h2 | h2
            · exact Or.inl (List.mem_cons_of_mem a h2)
            · exact Or.inr h2
        | some q =>
          rw [hsp] at h
          rcases List.mem_cons.mp h with h1 | h1
          · exact Or.inr h1
          · rcases ih q.2 h1 with h2 | h2
            · have hq := splitGt_eq rest q.1 q.2 (by rw [hsp])
              refine Or.inl (List.mem_cons_of_mem a ?_)
              rw [hq]
              simp [h2]
            · exact Or.inr h2
      · simp only [stripTagsGo, ha, Bool.false_eq_true, if_false] at h
        rcases List.mem_cons.mp h with h1 | h1
        · exact Or.inl (by rw [h1]; exact List.mem_cons_self _ rest)
        · rcases ih rest h1 with h2 | h2
          · exact Or.inl (List.mem_cons_of_mem a h2)
          · exact Or.inr h2

/-- `stripTags` output satisfies the no-tag invariant (with adequate fuel). -/
theorem noTagP_stripTagsGo : ∀ (fuel : ℕ) (l : List Char), l.length ≤ fuel →
    NoTagP (stripTagsGo fuel l) := by
  intro fuel
  induction fuel with
  | zero =>
    intro l hl
    have : l = [] := List.eq_nil_of_length_eq_zero (Nat.le_zero.mp hl)
    rw [this]
    exact noTagP_nil
  | succ f ih =>
    intro l hl
    cases l with
    | nil => exact noTagP_nil
    | cons a rest =>
      by_cases ha : (a == '<') = true
      · simp only [stripTagsGo, ha, if_true]
        cases hsp : splitGt rest with
        | none =>
          rw [noTagP_cons]
          refine ⟨?_, ih rest (by simpa using hl)⟩
          intro _ hm
          rcases mem_stripTagsGo f rest hm with h2 | h2
          · exact not_mem_of_splitGt_none rest hsp h2
          · exact absurd h2 (by decide)
        | some q =>
          rw [noTagP_cons]
          have hq := splitGt_eq rest q.1 q.2 (by rw [hsp])
          have hlen : q.2.length ≤ f := by
            have : rest.length = q.1.length + 1 + q.2.length := by
              rw [hq]
              simp [List.length_append]
              omega
            simp only [List.length_cons] at hl
            omega
          exact ⟨fun hcon => absurd hcon (by decide), ih q.2 hlen⟩
      · simp only [stripTagsGo, ha, Bool.false_eq_true, if_false]
        rw [noTagP_cons]
        refine ⟨?_, ih rest (by simpa using hl)⟩
        intro hcon
        have ha2 : a ≠ '<' := by simpa using ha
        exact absurd hcon ha2

/-- On no-tag text, `stripTags` is the identity (any fuel). -/
theorem stripTagsGo_eq_self : ∀ (fuel : ℕ) (l : List Char), NoTagP l →
    stripTagsGo fuel l = l := by
  intro fuel
  induction fuel with
  | zero => intro l _; cases l <;> rfl
  | succ f ih =>
    intro l h
    cases l with
    | nil => rfl
    | cons a rest =>
      rw [noTagP_cons] at h
      by_cases ha : (a == '<') = true
      · have hgt : splitGt rest = none := by
          apply splitGt_none_of_not_mem
          exact h.1 (by rw [beq_iff_eq] at ha; exact ha)
        simp only [stripTagsGo, ha, if_true, hgt]
        rw [ih rest h.2]
      · simp only [stripTagsGo, ha, Bool.false_eq_true, if_false]
        rw [ih rest h.2]

/-- Tail of a collapsed-whitespace list is collapsed. -/
theorem wsOk_tail (c : Char) (rest : List Char) (h : wsOk (c :: rest) = true) :
    wsOk rest = true := by
  cases rest with
  | nil => rfl
  | cons d r =>
    simp only [wsOk, Bool.and_eq_true] at h
    exact h.2

/-- In a collapsed list a whitespace head is a plain space. -/
theorem wsOk_head_space (c : Char) (rest : List Char) (h : wsOk (c :: rest) = true)
    (hws : jsWs c = true) : c = ' ' := by
  cases rest with
  | nil =>
    simp only [wsOk, hws, Bool.not_true, Bool.false_or, beq_iff_eq] at h
    exact h
  | cons d r =>
    simp only [wsOk, Bool.and_eq_true] at h
    have h1 := h.1.1
    rw [hws] at h1
    simp only [Bool.not_true, Bool.false_or, beq_iff_eq] at h1
    exact h1

/-- In a collapsed list no whitespace char is followed by whitespace. -/
theorem wsOk_adj (c d : Char) (r : List Char) (h : wsOk (c :: d :: r) = true)
    (hws : jsWs c = true) : jsWs d = false := by
  simp only [wsOk, Bool.and_eq_true] at h
  have h2 := h.1.2
  rw [hws] at h2
  simp only [Bool.true_and, Bool.not_eq_true'] at h2
  exact h2

/-- Collapsedness restricts to suffixes. -/
theorem wsOk_suffix : ∀ u s : List Char, wsOk (u ++ s) = true → wsOk s = true := by
  intro u
  induction u with
  | nil => intro s h; exact h
  | cons a u' ih =>
    intro s h
    rw [List.cons_append] at h
    exact ih s (wsOk_tail a (u' ++ s) h)

/-- Collapsedness restricts to prefixes. -/
theorem wsOk_of_append_left : ∀ s w : List Char, wsOk (s ++ w) = true → wsOk s = true := by
  intro s
  induction s with
  | nil => intro w _; rfl
  | cons c s' ih =>
    intro w h
    rw [List.cons_append] at h
    cases s' with
    | nil =>
      cases w with
      | nil => simpa using h
      | cons e w' =>
        simp only [List.nil_append, wsOk, Bool.and_eq_true] at h
        simp only [wsOk]
        exact h.1.1
    | cons d s'' =>
      rw [List.cons_append] at h
      simp only [wsOk, Bool.and_eq_true] at h
      have htail : wsOk (d :: s'') = true := ih w (by rw [List.cons_append]; exact h.2)
      simp only [wsOk, Bool.and_eq_true]
      exact ⟨h.1, htail⟩

/-- Characters of collapsed output come from the input, apart from spaces. -/
theorem mem_collapseWsGo {c : Char} : ∀ (fuel : ℕ) (l : List Char),
    c ∈ collapseWsGo fuel l → c ∈ l ∨ c = ' ' := by
  intro fuel
  induction fuel with
  | zero =>
    intro l h
    cases l with
    | nil => simp [collapseWsGo] at h
    | cons a rest => exact Or.inl h
  | succ f ih =>
    intro l h
    cases l with
    | nil => simp [collapseWsGo] at h
    | cons a rest =>
      by_cases ha : jsWs a = true
      · simp only [collapseWsGo, ha, if_true] at h
        rcases List.mem_cons.mp h with h1 | h1
        · exact Or.inr h1
        · rcases ih _ h1 with h2 | h2
          · exact Or.inl (List.mem_cons_of_mem a
              (List.Sublist.mem h2 (List.dropWhile_sublist jsWs)))
          · exact Or.inr h2
      · simp only [collapseWsGo, ha, Bool.false_eq_true, if_false] at h
        rcases List.mem_cons.mp h with h1 | h1
        · exact Or.inl (by rw [h1]; exact List.mem_cons_self _ rest)
        · rcases ih rest h1 with h2 | h2
          · exact Or.inl (List.mem_cons_of_mem a h2)
          · exact Or.inr h2

/-- The head of `dropWhile p` output fails `p`. -/
theorem dropWhile_head_false (p : Char → Bool) : ∀ (l : List Char) (c : Char) (r : List Char),
    l.dropWhile p = c :: r → p c = false := by
  intro l
  induction l with
  | nil => intro c r h; simp [List.dropWhile] at h
  | cons a rest ih =>
    intro c r h
    rw [List.dropWhile_cons] at h
    by_cases ha : p a = true
    · rw [if_pos ha] at h
      exact ih c r h
    · rw [if_neg ha] at h
      injection h with h1 _
      rw [← h1]
      exact Bool.not_eq_true _ ▸ ha

/-- Collapsing keeps a non-whitespace head in place (any fuel). -/
theorem collapseWsGo_cons_head (d : Char) (r : List Char) (hd : jsWs d = false) :
    ∀ fuel : ℕ, ∃ t, collapseWsGo fuel (d :: r) = d :: t := by
  intro fuel
  cases fuel with
  | zero => exact ⟨r, rfl⟩
  | succ f =>
    refine ⟨collapseWsGo f r, ?_⟩
    simp only [collapseWsGo, hd, Bool.false_eq_true, if_false]

/-- A non-whitespace cons onto a collapsed list is collapsed. -/
theorem wsOk_cons_of_head_false (c : Char) (x : List Char) (hc : jsWs c = false)
    (hx : wsOk x = true) : wsOk (c :: x) = true := by
  cases x with
  | nil => simp [wsOk, hc]
  | cons d r =>
    simp only [wsOk, Bool.and_eq_true] at hx ⊢
    refine ⟨⟨?_, ?_⟩, hx⟩
    · rw [hc]; rfl
    · rw [hc]; rfl

/-- A space before a non-whitespace head keeps the list collapsed. -/
theorem wsOk_space_cons (d : Char) (t : List Char) (hd : jsWs d = false)
    (ht : wsOk (d :: t) = true) : wsOk (' ' :: d :: t) = true := by
  simp only [wsOk, Bool.and_eq_true] at ht ⊢
  refine ⟨⟨?_, ?_⟩, ht⟩
  · rfl
  · rw [hd]; rfl

/-- Collapse output is collapsed (with adequate fuel). -/
theorem wsOk_collapseWsGo : ∀ (fuel : ℕ) (l : List Char), l.length ≤ fuel →
    wsOk (collapseWsGo fuel l) = true := by
  intro fuel
  induction fuel with
  | zero =>
    intro l hl
    have : l = [] := List.eq_nil_of_length_eq_zero (Nat.le_zero.mp hl)
    rw [this]
    rfl
  | succ f ih =>
    intro l hl
    cases l with
    | nil => rfl
    | cons a rest =>
      simp only [List.length_cons] at hl
      by_cases ha : jsWs a = true
      · simp only [collapseWsGo, ha, if_true]
        cases hdw : rest.dropWhile jsWs with
        | nil =>
          have : collapseWsGo f [] = [] := by cases f <;> rfl
          rw [this]
          rfl
        | cons d r2 =>
          have hd : jsWs d = false := dropWhile_head_false jsWs rest d r2 hdw
          have hlen : (d :: r2).length ≤ f := by
            have h1 : (rest.dropWhile jsWs).length ≤ rest.length :=
              List.Sublist.length_le (List.dropWhile_sublist jsWs)
            rw [hdw] at h1
            omega
          obtain ⟨t, htEq⟩ := collapseWsGo_cons_head d r2 hd f
          rw [htEq]
          apply wsOk_space_cons d t hd
          rw [← htEq]
          exact ih (d :: r2) hlen
      · have ha2 : jsWs a = false := by simpa using ha
        simp only [collapseWsGo, ha2, Bool.false_eq_true, if_false]
        exact wsOk_cons_of_head_false a _ ha2 (ih rest (by omega))

/-- On collapsed text, collapsing is the identity (any fuel). -/
theorem collapseWsGo_eq_self : ∀ (fuel : ℕ) (l : List Char), wsOk l = true →
    collapseWsGo fuel l = l := by
  intro fuel
  induction fuel with
  | zero => intro l _; cases l <;> rfl
  | succ f ih =>
    intro l h
    cases l with
    | nil => rfl
    | cons a rest =>
      by_cases ha : jsWs a = true
      · have haSp : a = ' ' := wsOk_head_space a rest h ha
        simp only [collapseWsGo, ha, if_true]
        cases rest with
        | nil =>
          have h0 : collapseWsGo f (List.dropWhile jsWs []) = [] := by cases f <;> rfl
          rw [h0, haSp]
        | cons d r =>
          have hd : jsWs d = false := wsOk_adj a d r h ha
          rw [List.dropWhile_cons, if_neg (by rw [hd]; simp)]
          rw [ih (d :: r) (wsOk_tail a (d :: r) h), haSp]
      · have ha2 : jsWs a = false := by simpa using ha
        simp only [collapseWsGo, ha2, Bool.false_eq_true, if_false]
        rw [ih rest (wsOk_tail a rest h)]

/-- `dropTrail` is idempotent. -/
theorem dropTrail_idem (p : Char → Bool) : ∀ l : List Char,
    dropTrail p (dropTrail p l) = dropTrail p l := by
  intro l
  induction l with
  | nil => rfl
  | cons c rest ih =>
    have hA : dropTrail p (c :: rest)
        = if (dropTrail p rest).isEmpty && p c then [] else c :: dropTrail p rest := rfl
    rw [hA]
    by_cases h : ((dropTrail p rest).isEmpty && p c) = true
    · rw [if_pos h]
      rfl
    · rw [if_neg h]
      have hB : dropTrail p (c :: dropTrail p rest)
          = if (dropTrail p (dropTrail p rest)).isEmpty && p c then []
            else c :: dropTrail p (dropTrail p rest) := rfl
      rw [hB, ih, if_neg h]

/-- `dropTrail` output is a prefix of the input. -/
theorem dropTrail_eq_append (p : Char → Bool) : ∀ l : List Char,
    ∃ w, l = dropTrail p l ++ w := by
  intro l
  induction l with
  | nil => exact ⟨[], rfl⟩
  | cons c rest ih =>
    obtain ⟨w, hw⟩ := ih
    have hA : dropTrail p (c :: rest)
        = if (dropTrail p rest).isEmpty && p c then [] else c :: dropTrail p rest := rfl
    by_cases h : ((dropTrail p rest).isEmpty && p c) = true
    · refine ⟨c :: rest, ?_⟩
      rw [hA, if_pos h]
      rfl
    · refine ⟨w, ?_⟩
      rw [hA, if_neg h, List.cons_append, ← hw]

/-- `trimL` is idempotent. -/
theorem trimL_trimL (l : List Char) : trimL (trimL l) = trimL l := by
  have hdw : (trimL l).dropWhile jsWs = trimL l := by
    cases ht : trimL l with
    | nil => rfl
    | cons c r =>
      obtain ⟨w, hw⟩ := dropTrail_eq_append jsWs (l.dropWhile jsWs)
      have hw2 : l.dropWhile jsWs = (c :: r) ++ w := by
        rw [hw]
        rw [show dropTrail jsWs (l.dropWhile jsWs) = trimL l from rfl, ht]
      have hc : jsWs c = false :=
        dropWhile_head_false jsWs l c (r ++ w) (by rw [hw2]; rfl)
      rw [List.dropWhile_cons, if_neg (by rw [hc]; simp)]
  show dropTrail jsWs ((trimL l).dropWhile jsWs) = trimL l
  rw [hdw]
  exact dropTrail_idem jsWs (l.dropWhile jsWs)

/-- The no-tag invariant survives collapsing (any fuel). -/
theorem noTagP_collapseWsGo : ∀ (fuel : ℕ) (l : List Char), NoTagP l →
    NoTagP (collapseWsGo fuel l) := by
  intro fuel
  induction fuel with
  | zero =>
    intro l h
    cases l with
    | nil => exact noTagP_nil
    | cons a rest => exact h
  | succ f ih =>
    intro l h
    cases l with
    | nil => exact noTagP_nil
    | cons a rest =>
      rw [noTagP_cons] at h
      by_cases ha : jsWs a = true
      · simp only [collapseWsGo, ha, if_true]
        rw [noTagP_cons]
        constructor
        · intro hcon
          exact absurd hcon (by decide)
        · apply ih
          obtain ⟨u, hu⟩ : ∃ u, rest = u ++ rest.dropWhile jsWs :=
            ⟨rest.takeWhile jsWs, (List.takeWhile_append_dropWhile jsWs rest).symm⟩
          exact noTagP_suffix_of_append u _ (hu ▸ h.2)
      · have ha2 : jsWs a = false := by simpa using ha
        simp only [collapseWsGo, ha2, Bool.false_eq_true, if_false]
        rw [noTagP_cons]
        constructor
        · intro hEq hm
          rcases mem_collapseWsGo f rest hm with h2 | h2
          · exact h.1 hEq h2
          · exact absurd h2 (by decide)
        · exact ih rest h.2

/-- The no-tag invariant survives trimming. -/
theorem noTagP_trimL (l : List Char) (h : NoTagP l) : NoTagP (trimL l) := by
  have h1 : NoTagP (l.dropWhile jsWs) := by
    obtain ⟨u, hu⟩ : ∃ u, l = u ++ l.dropWhile jsWs :=
      ⟨l.takeWhile jsWs, (List.takeWhile_append_dropWhile jsWs l).symm⟩
    exact noTagP_suffix_of_append u _ (hu ▸ h)
  obtain ⟨w, hw⟩ := dropTrail_eq_append jsWs (l.dropWhile jsWs)
  exact noTagP_of_append_left _ w (hw ▸ h1)

/-- Collapsedness survives trimming. -/
theorem wsOk_trimL (l : List Char) (h : wsOk l = true) : wsOk (trimL l) = true := by
  have h1 : wsOk (l.dropWhile jsWs) = true := by
    have hu := (List.takeWhile_append_dropWhile jsWs l).symm
    exact wsOk_suffix (l.takeWhile jsWs) _ (by rw [← hu]; exact h)
  obtain ⟨w, hw⟩ := dropTrail_eq_append jsWs (l.dropWhile jsWs)
  have hw2 : l.dropWhile jsWs = trimL l ++ w := hw
  exact wsOk_of_append_left _ w (by rw [← hw2]; exact h1)

/-- A literal replace whose pattern head is absent is the identity. -/
theorem replaceAllGo_no_head (p0 : Char) (ps rep : List Char) :
    ∀ (fuel : ℕ) (l : List Char), p0 ∉ l → replaceAllGo (p0 :: ps) rep fuel l = l := by
  intro fuel
  induction fuel with
  | zero => intro l _; cases l <;> rfl
  | succ f ih =>
    intro l h
    cases l with
    | nil => rfl
    | cons c rest =>
      have hc : (p0 == c) = false := by
        rw [beq_eq_false_iff_ne]
        intro hcd
        exact h (by rw [← hcd]; exact List.mem_cons_self _ rest)
      simp only [replaceAllGo, startsWithL, hc, Bool.false_and, Bool.false_eq_true, if_false]
      rw [ih rest (fun hm => h (List.mem_cons_of_mem c hm))]

/-- Entity decoding is the identity on ampersand-free text. -/
theorem decodeEntities_no_amp (l : List Char) (h : '&' ∉ l) : decodeEntities l = l := by
  simp only [decodeEntities, replaceAllL]
  rw [replaceAllGo_no_head '&' _ _ _ l h]
  rw [replaceAllGo_no_head '&' _ _ _ l h]
  rw [replaceAllGo_no_head '&' _ _ _ l h]
  rw [replaceAllGo_no_head '&' _ _ _ l h]
  rw [replaceAllGo_no_head '&' _ _ _ l h]
  rw [replaceAllGo_no_head '&' _ _ _ l h]

/-- On text that is tag-free, ampersand-free, collapsed and trimmed, the whole
`stripHtml` pipeline is the identity. -/
theorem stripPipeline_fix (y : List Char) (hNT : NoTagP y) (hW : wsOk y = true)
    (hA : '&' ∉ y) (hT : trimL y = y) :
    trimL (collapseWsL (decodeEntities (stripTagsL y))) = y := by
  have hst : stripTagsL y = y := stripTagsGo_eq_self y.length y hNT
  rw [hst, decodeEntities_no_amp y hA]
  have hcw : collapseWsL y = y := collapseWsGo_eq_self y.length y hW
  rw [hcw, hT]

/-- C7 (counterexample): `stripHtml` is not idempotent: entity decoding runs
after tag removal, so it can reintroduce markup that only a second pass would
strip — `stripHtml("&lt;b&gt;") = "<b>"` but a second application gives `""`. -/
theorem strip_html_not_idempotent_cex :
    stripHtmlS (stripHtmlS "&lt;b&gt;") ≠ stripHtmlS "&lt;b&gt;"
    ∧ stripHtmlS "&lt;b&gt;" = "<b>"
    ∧ stripHtmlS (stripHtmlS "&lt;b&gt;") = "" := by
  refine ⟨by decide, rfl, rfl⟩

/-- C7 (amended): `stripHtml` is idempotent on every input containing no `'&'`
(no entity can then reintroduce markup: one pass leaves no complete tag, no
entity, and normalized whitespace, so a second pass changes nothing); on inputs
with entities encoding markup, idempotence fails. -/
theorem strip_html_idempotent_no_amp (s : String) (h : '&' ∉ s.data) :
    stripHtmlS (stripHtmlS s) = stripHtmlS s := by
  by_cases hs : s = ""
  · subst hs
    rfl
  · have hS : stripHtmlS s
        = String.mk (trimL (collapseWsL (decodeEntities (stripTagsL s.data)))) := by
      show stripHtmlA (some s) = _
      simp only [stripHtmlA]
      rw [if_neg hs]
    have hzAmp : '&' ∉ stripTagsL s.data := by
      intro hm
      rcases mem_stripTagsGo s.data.length s.data hm with hm' | hm'
      · exact h hm'
      · exact absurd hm' (by decide)
    rw [decodeEntities_no_amp _ hzAmp] at hS
    have hNTy : NoTagP (trimL (collapseWsL (stripTagsL s.data))) :=
      noTagP_trimL _
        (noTagP_collapseWsGo _ _ (noTagP_stripTagsGo s.data.length s.data (le_refl _)))
    have hWy : wsOk (trimL (collapseWsL (stripTagsL s.data))) = true :=
      wsOk_trimL _ (wsOk_collapseWsGo (stripTagsL s.data).length _ (le_refl _))
    have hAy : '&' ∉ trimL (collapseWsL (stripTagsL s.data)) := by
      intro hm
      rcases mem_collapseWsGo (stripTagsL s.data).length _ (mem_trimL hm) with h2 | h2
      · exact hzAmp h2
      · exact absurd h2 (by decide)
    have hTy : trimL (trimL (collapseWsL (stripTagsL s.data)))
        = trimL (collapseWsL (stripTagsL s.data)) := trimL_trimL _
    rw [hS]
    by_cases hy0 : String.mk (trimL (collapseWsL (stripTagsL s.data))) = ""
    · rw [hy0]
      rfl
    · have hS2 : stripHtmlS (String.mk (trimL (collapseWsL (stripTagsL s.data))))
          = String.mk (trimL (collapseWsL (decodeEntities (stripTagsL
              (trimL (collapseWsL (stripTagsL s.data))))))) := by
        show stripHtmlA (some _) = _
        simp only [stripHtmlA]
        rw [if_neg hy0]
      rw [hS2, stripPipeline_fix _ hNTy hWy hAy hTy]

/-- C7 (witness): idempotence on a concrete ampersand-free HTML string. -/
theorem strip_html_idem_witness :
    stripHtmlS (stripHtmlS "  <b>Bold</b>   text ") = stripHtmlS "  <b>Bold</b>   text " :=
  strip_html_idempotent_no_amp "  <b>Bold</b>   text " (by decide)
